import Mathlib

/-!
Shallow embedding of the trading-account ledger of this repository
(`tdd_engineering_team/output/1763171346/accounts.py`, the primary copy of
the `Account` class; the near-identical copy in `output/1763111947` differs
only where noted).

Monetary amounts are modelled as exact rationals (`ℚ`); Python integers are
`ℤ`; the `holdings` dict (`defaultdict(int)`, insertion ordered, unique
keys) is an association list `List (String × ℤ)` with dict-style first-match
lookup, in-place update and deletion; `datetime.now()` timestamps are
abstract naturals supplied by the caller.  Raising an exception is modelled
with `Except`.  A separate model with IEEE special values (`PyFloat`) is
used for the one claim whose content is about non-finite inputs.
-/

namespace CrewAccounts

/-- The four transaction kinds of `TransactionType`. -/
inductive TxType where
  | DEPOSIT
  | WITHDRAWAL
  | BUY
  | SELL
deriving DecidableEq

/-- The `Transaction` TypedDict: timestamp, type, optional symbol /
quantity / price-per-share, and total amount. -/
structure Transaction where
  timestamp : ℕ
  type : TxType
  symbol : Option String
  quantity : Option ℤ
  price_per_share : Option ℚ
  total_amount : ℚ
deriving DecidableEq

/-- The custom exception taxonomy of `accounts.py`: `ValueError` for
malformed input and the three `AccountError` subclasses. -/
inductive AccountErr where
  | ValueErr
  | InsufficientFunds
  | InsufficientShares
  | InvalidSymbol
deriving DecidableEq

/-- Equality of `Except` results is decidable when both components
are, allowing concrete runs to be checked by evaluation. -/
instance exceptDecEq {ε α : Type} [DecidableEq ε] [DecidableEq α] :
    DecidableEq (Except ε α)
  | .error e1, .error e2 =>
    if h : e1 = e2 then .isTrue (h ▸ rfl)
    else .isFalse (fun hc => h (Except.error.inj hc))
  | .error _, .ok _ => .isFalse (fun hc => Except.noConfusion hc)
  | .ok _, .error _ => .isFalse (fun hc => Except.noConfusion hc)
  | .ok a1, .ok a2 =>
    if h : a1 = a2 then .isTrue (h ▸ rfl)
    else .isFalse (fun hc => h (Except.ok.inj hc))

/-- Dict-style lookup with default 0: `self.holdings.get(s, 0)`. -/
def hGet : List (String × ℤ) → String → ℤ
  | [], _ => 0
  | p :: t, s => if p.1 == s then p.2 else hGet t s

/-- Dict membership: `s in self.holdings`. -/
def hMem : List (String × ℤ) → String → Bool
  | [], _ => false
  | p :: t, s => p.1 == s || hMem t s

/-- `defaultdict(int)` update `self.holdings[s] += q`: adds `q` to the
existing entry for `s`, or appends `(s, q)` when `s` is absent. -/
def hAddQ : List (String × ℤ) → String → ℤ → List (String × ℤ)
  | [], s, q => [(s, q)]
  | p :: t, s, q => if p.1 == s then (p.1, p.2 + q) :: t else p :: hAddQ t s q

/-- Dict deletion `del self.holdings[s]`: removes the entry for `s`. -/
def hDel : List (String × ℤ) → String → List (String × ℤ)
  | [], _ => []
  | p :: t, s => if p.1 == s then t else p :: hDel t s

/-- `str.strip()`: drops leading and trailing whitespace. -/
def trimChars (l : List Char) : List Char :=
  ((l.dropWhile Char.isWhitespace).reverse.dropWhile Char.isWhitespace).reverse

/-- Symbol normalization used on the buy, sell and valuation paths:
`symbol.upper().strip()`. -/
def normSym (s : String) : String := ⟨trimChars (s.data.map Char.toUpper)⟩

/-- The mutable state of an `Account` object: username, cash balance,
holdings dict and transaction log (insertion order). -/
structure Account where
  username : String
  cash_balance : ℚ
  holdings : List (String × ℤ)
  transactions : List Transaction
deriving DecidableEq

/-- `_record_transaction`: appends one transaction to the log. -/
def Account.recordTransaction (a : Account) (now : ℕ) (ty : TxType) (amount : ℚ)
    (symbol : Option String) (quantity : Option ℤ) (price : Option ℚ) : Account :=
  { a with transactions :=
      a.transactions ++ [⟨now, ty, symbol, quantity, price, amount⟩] }

/-- `Account.__init__`: rejects a non-positive initial deposit with
`ValueError`; otherwise starts with cash = initial deposit, empty holdings,
and one recorded DEPOSIT transaction. -/
def Account.create (username : String) (initial_deposit : ℚ) (now : ℕ) :
    Except AccountErr Account :=
  if initial_deposit ≤ 0 then .error .ValueErr
  else .ok
    { username := username
      cash_balance := initial_deposit
      holdings := []
      transactions := [⟨now, .DEPOSIT, none, none, none, initial_deposit⟩] }

/-- `Account.deposit`: rejects a non-positive amount, otherwise adds it to
the cash balance, records a DEPOSIT transaction and returns the new
balance. -/
def Account.deposit (a : Account) (amount : ℚ) (now : ℕ) :
    Except AccountErr (ℚ × Account) :=
  if amount ≤ 0 then .error .ValueErr
  else
    let a1 := { a with cash_balance := a.cash_balance + amount }
    let a2 := a1.recordTransaction now .DEPOSIT amount none none none
    .ok (a2.cash_balance, a2)

/-- `Account.withdraw`: rejects a non-positive amount, rejects an amount
above the cash balance with `InsufficientFundsError`, otherwise subtracts
it, records a WITHDRAWAL transaction and returns the new balance. -/
def Account.withdraw (a : Account) (amount : ℚ) (now : ℕ) :
    Except AccountErr (ℚ × Account) :=
  if amount ≤ 0 then .error .ValueErr
  else if amount > a.cash_balance then .error .InsufficientFunds
  else
    let a1 := { a with cash_balance := a.cash_balance - amount }
    let a2 := a1.recordTransaction now .WITHDRAWAL amount none none none
    .ok (a2.cash_balance, a2)

/-- The receipt dict returned by `buy_shares`. -/
structure BuyReceipt where
  symbol : String
  quantity : ℤ
  price_per_share : ℚ
  total_cost : ℚ
deriving DecidableEq

/-- The receipt dict returned by `sell_shares`. -/
structure SellReceipt where
  symbol : String
  quantity : ℤ
  price_per_share : ℚ
  total_proceeds : ℚ
deriving DecidableEq

/-- `Account.buy_shares`: validates the quantity, normalizes the symbol,
looks the price up once (`InvalidSymbolError` when unknown), checks
affordability (`InsufficientFundsError`), then deducts the cost, adds the
quantity to holdings and records a BUY transaction. -/
def Account.buy_shares (P : String → Option ℚ) (a : Account)
    (symbol : String) (quantity : ℤ) (now : ℕ) :
    Except AccountErr (BuyReceipt × Account) :=
  if quantity ≤ 0 then .error .ValueErr
  else
    let clean_symbol := normSym symbol
    match P clean_symbol with
    | none => .error .InvalidSymbol
    | some price =>
      let total_cost : ℚ := (quantity : ℚ) * price
      if total_cost > a.cash_balance then .error .InsufficientFunds
      else
        let a1 := { a with
          cash_balance := a.cash_balance - total_cost
          holdings := hAddQ a.holdings clean_symbol quantity }
        let a2 := a1.recordTransaction now .BUY total_cost
          (some clean_symbol) (some quantity) (some price)
        .ok (⟨clean_symbol, quantity, price, total_cost⟩, a2)

/-- `Account.sell_shares`: validates the quantity, normalizes the symbol,
checks owned quantity before consulting the price provider
(`InsufficientSharesError`), then looks the price up once
(`InvalidSymbolError` when unknown), credits the proceeds, decrements the
holding — deleting it when it reaches zero — and records a SELL
transaction. -/
def Account.sell_shares (P : String → Option ℚ) (a : Account)
    (symbol : String) (quantity : ℤ) (now : ℕ) :
    Except AccountErr (SellReceipt × Account) :=
  if quantity ≤ 0 then .error .ValueErr
  else
    let clean_symbol := normSym symbol
    let owned_quantity := hGet a.holdings clean_symbol
    if quantity > owned_quantity then .error .InsufficientShares
    else
      match P clean_symbol with
      | none => .error .InvalidSymbol
      | some price =>
        let total_proceeds : ℚ := (quantity : ℚ) * price
        let h1 := hAddQ a.holdings clean_symbol (-quantity)
        let h2 := if hGet h1 clean_symbol == 0 then hDel h1 clean_symbol else h1
        let a1 := { a with
          cash_balance := a.cash_balance + total_proceeds
          holdings := h2 }
        let a2 := a1.recordTransaction now .SELL total_proceeds
          (some clean_symbol) (some quantity) (some price)
        .ok (⟨clean_symbol, quantity, price, total_proceeds⟩, a2)

/-- One element of the summary's holdings listing (`Holding` TypedDict). -/
structure HoldingE where
  symbol : String
  quantity : ℤ
deriving DecidableEq

/-- The `PortfolioSummary` TypedDict of the primary copy. -/
structure PortfolioSummary where
  cash_balance : ℚ
  net_deposits : ℚ
  holdings : List HoldingE
  total_portfolio_value : ℚ
  total_shares_value : ℚ
  profit_loss : ℚ
deriving DecidableEq

/-- One step of the stable ascending insertion used to model Python's
stable `sorted(holdings_list, key=symbol)`. -/
def insertHolding (x : HoldingE) : List HoldingE → List HoldingE
  | [] => [x]
  | y :: ys => if x.symbol ≤ y.symbol then x :: y :: ys else y :: insertHolding x ys

/-- Stable ascending sort of the holdings listing by symbol, as
`sorted(..., key=lambda h: h.symbol)` does. -/
def sortHoldings : List HoldingE → List HoldingE
  | [] => []
  | x :: xs => insertHolding x (sortHoldings xs)

/-- `Account.get_portfolio_summary`: values each held symbol at the
provider price (contributing zero when the price is unknown, while still
listing the holding), recomputes net deposits from the full log
(Σ DEPOSIT totals − Σ WITHDRAWAL totals) and derives the portfolio value
and profit/loss. -/
def Account.get_portfolio_summary (P : String → Option ℚ) (a : Account) :
    PortfolioSummary :=
  let total_shares_value : ℚ :=
    (a.holdings.map (fun p =>
      match P p.1 with
      | some price => (p.2 : ℚ) * price
      | none => 0)).sum
  let holdings_list : List HoldingE := a.holdings.map (fun p => ⟨p.1, p.2⟩)
  let total_portfolio_value := a.cash_balance + total_shares_value
  let total_deposits : ℚ :=
    ((a.transactions.filter (fun tx => tx.type == .DEPOSIT)).map
      Transaction.total_amount).sum
  let total_withdrawals : ℚ :=
    ((a.transactions.filter (fun tx => tx.type == .WITHDRAWAL)).map
      Transaction.total_amount).sum
  let net_deposits := total_deposits - total_withdrawals
  let profit_loss := total_portfolio_value - net_deposits
  { cash_balance := a.cash_balance
    net_deposits := net_deposits
    holdings := sortHoldings holdings_list
    total_portfolio_value := total_portfolio_value
    total_shares_value := total_shares_value
    profit_loss := profit_loss }

/-- One step of the stable descending insertion used to model Python's
stable `sorted(..., key=timestamp, reverse=True)`: an element placed later
never jumps ahead of an equal-key element placed earlier. -/
def insertTxDesc (x : Transaction) : List Transaction → List Transaction
  | [] => [x]
  | y :: ys =>
      if y.timestamp ≤ x.timestamp then x :: y :: ys else y :: insertTxDesc x ys

/-- Stable descending sort by timestamp, as
`sorted(self.transactions, key=lambda tx: tx.timestamp, reverse=True)`. -/
def sortTxDesc : List Transaction → List Transaction
  | [] => []
  | x :: xs => insertTxDesc x (sortTxDesc xs)

/-- `Account.get_transaction_history`: the log sorted by timestamp, most
recent first (stable). -/
def Account.get_transaction_history (a : Account) : List Transaction :=
  sortTxDesc a.transactions

/-- One mutating call issued against an account. -/
inductive Op where
  | dep (amount : ℚ)
  | wd (amount : ℚ)
  | buy (symbol : String) (quantity : ℤ)
  | sell (symbol : String) (quantity : ℤ)

/-- Applies one mutating call, exception-style: an error leaves the account
exactly as it was (the Python method raised before any assignment ran). -/
def applyOp (P : String → Option ℚ) (a : Account) (op : Op) (now : ℕ) :
    Account × Option AccountErr :=
  match op with
  | .dep amount =>
      match a.deposit amount now with
      | .ok r => (r.2, none)
      | .error e => (a, some e)
  | .wd amount =>
      match a.withdraw amount now with
      | .ok r => (r.2, none)
      | .error e => (a, some e)
  | .buy symbol quantity =>
      match a.buy_shares P symbol quantity now with
      | .ok r => (r.2, none)
      | .error e => (a, some e)
  | .sell symbol quantity =>
      match a.sell_shares P symbol quantity now with
      | .ok r => (r.2, none)
      | .error e => (a, some e)

/-- States reachable from a successfully created account by any sequence
of successful deposit / withdraw / buy / sell calls against the fixed
price provider `P`. -/
inductive Reachable (P : String → Option ℚ) : Account → Prop where
  | created (username : String) (d : ℚ) (now : ℕ) (a : Account)
      (h : Account.create username d now = .ok a) : Reachable P a
  | step (a : Account) (op : Op) (now : ℕ) (ha : Reachable P a)
      (h : (applyOp P a op now).2 = none) : Reachable P (applyOp P a op now).1

/-! ### Lemmas about the holdings dict operations -/

theorem hGet_eq_zero_of_not_mem (h : List (String × ℤ)) (s : String)
    (hm : hMem h s = false) : hGet h s = 0 := by
  induction h with
  | nil => rfl
  | cons p t ih =>
    simp only [hMem, Bool.or_eq_false_iff] at hm
    simp only [hGet, hm.1, if_false]
    exact ih hm.2

theorem hGet_pos_of_mem (h : List (String × ℤ)) (s : String)
    (hpos : ∀ p ∈ h, 0 < p.2) (hm : hMem h s = true) : 0 < hGet h s := by
  induction h with
  | nil => simp [hMem] at hm
  | cons p t ih =>
    simp only [hMem, Bool.or_eq_true] at hm
    by_cases hp : (p.1 == s) = true
    · simpa [hGet, hp] using hpos p (by simp)
    · have ht : hMem t s = true := by
        rcases hm with hm | hm
        · exact absurd hm hp
        · exact hm
      have := ih (fun q hq => hpos q (by simp [hq])) ht
      simpa [hGet, hp] using this

theorem hMem_iff_hGet_pos (h : List (String × ℤ)) (s : String)
    (hpos : ∀ p ∈ h, 0 < p.2) : hMem h s = true ↔ 0 < hGet h s := by
  constructor
  · exact hGet_pos_of_mem h s hpos
  · intro hg
    by_contra hm
    rw [Bool.not_eq_true] at hm
    rw [hGet_eq_zero_of_not_mem h s hm] at hg
    exact lt_irrefl 0 hg

theorem hGet_hAddQ_self (h : List (String × ℤ)) (s : String) (d : ℤ) :
    hGet (hAddQ h s d) s = hGet h s + d := by
  induction h with
  | nil => simp [hGet, hAddQ]
  | cons p t ih =>
    by_cases hp : (p.1 == s) = true
    · simp [hGet, hAddQ, hp]
    · simp only [hAddQ, hp, if_false, hGet]
      simpa [hp] using ih

theorem hGet_hAddQ_ne (h : List (String × ℤ)) (s t : String) (d : ℤ)
    (hne : t ≠ s) : hGet (hAddQ h s d) t = hGet h t := by
  induction h with
  | nil =>
    have : (s == t) = false := by simpa using fun e => hne e.symm
    simp [hGet, hAddQ, this]
  | cons p l ih =>
    by_cases hp : (p.1 == s) = true
    · have hps : p.1 = s := by simpa using hp
      have : (p.1 == t) = false := by
        simp only [beq_eq_false_iff_ne, ne_eq]
        intro e; exact hne (e ▸ hps ▸ rfl)
      simp [hGet, hAddQ, hp, this]
    · simp only [hAddQ, hp, if_false, hGet]
      by_cases hq : (p.1 == t) = true
      · simp [hq]
      · simp [hq, ih]

theorem hGet_hDel_ne (h : List (String × ℤ)) (s t : String)
    (hne : t ≠ s) : hGet (hDel h s) t = hGet h t := by
  induction h with
  | nil => rfl
  | cons p l ih =>
    by_cases hp : (p.1 == s) = true
    · have hps : p.1 = s := by simpa using hp
      have : (p.1 == t) = false := by
        simp only [beq_eq_false_iff_ne, ne_eq]
        intro e; exact hne (e ▸ hps ▸ rfl)
      simp [hGet, hDel, hp, this]
    · simp only [hDel, hp, if_false, hGet]
      by_cases hq : (p.1 == t) = true
      · simp [hq]
      · simp [hq, ih]

theorem mem_hAddQ (h : List (String × ℤ)) (s : String) (d : ℤ) :
    ∀ p ∈ hAddQ h s d, p ∈ h ∨ (p.1 = s ∧ p.2 = hGet h s + d) := by
  induction h with
  | nil =>
    intro p hp
    simp only [hAddQ, List.mem_singleton] at hp
    subst hp
    exact Or.inr ⟨rfl, by simp [hGet]⟩
  | cons x t ih =>
    intro p hp
    by_cases hx : (x.1 == s) = true
    · have hxs : x.1 = s := by simpa using hx
      simp only [hAddQ, hx, if_true, List.mem_cons] at hp
      rcases hp with hp | hp
      · subst hp
        exact Or.inr ⟨hxs, by simp [hGet, hx]⟩
      · exact Or.inl (List.mem_cons_of_mem x hp)
    · simp only [hAddQ, hx, Bool.false_eq_true, if_false, List.mem_cons] at hp
      rcases hp with hp | hp
      · exact Or.inl (by simp [hp])
      · rcases ih p hp with hmem | ⟨h1, h2⟩
        · exact Or.inl (List.mem_cons_of_mem x hmem)
        · refine Or.inr ⟨h1, ?_⟩
          simpa [hGet, hx] using h2

theorem mem_hDel_hAddQ (h : List (String × ℤ)) (s : String) (d : ℤ) :
    ∀ p ∈ hDel (hAddQ h s d) s, p ∈ h := by
  induction h with
  | nil =>
    intro p hp
    simp [hAddQ, hDel] at hp
  | cons x t ih =>
    intro p hp
    by_cases hx : (x.1 == s) = true
    · simp only [hAddQ, hx, if_true, hDel] at hp
      exact List.mem_cons_of_mem x hp
    · simp only [hAddQ, hx, Bool.false_eq_true, if_false, hDel, List.mem_cons] at hp
      rcases hp with hp | hp
      · simp [hp]
      · exact List.mem_cons_of_mem x (ih p hp)

theorem hAddQ_not_mem (h : List (String × ℤ)) (s : String) (d : ℤ)
    (hm : hMem h s = false) : hAddQ h s d = h ++ [(s, d)] := by
  induction h with
  | nil => rfl
  | cons p t ih =>
    simp only [hMem, Bool.or_eq_false_iff] at hm
    simp [hAddQ, hm.1, ih hm.2]

theorem hGet_append_not_mem (h : List (String × ℤ)) (s : String) (v : ℤ)
    (hm : hMem h s = false) : hGet (h ++ [(s, v)]) s = v := by
  induction h with
  | nil => simp [hGet]
  | cons p t ih =>
    simp only [hMem, Bool.or_eq_false_iff] at hm
    simp only [List.cons_append, hGet, hm.1, if_false]
    exact ih hm.2

theorem hAddQ_append_self (h : List (String × ℤ)) (s : String) (q d : ℤ)
    (hm : hMem h s = false) : hAddQ (h ++ [(s, q)]) s d = h ++ [(s, q + d)] := by
  induction h with
  | nil => simp [hAddQ]
  | cons p t ih =>
    simp only [hMem, Bool.or_eq_false_iff] at hm
    simp [hAddQ, hm.1, ih hm.2]

theorem hDel_append_self (h : List (String × ℤ)) (s : String) (v : ℤ)
    (hm : hMem h s = false) : hDel (h ++ [(s, v)]) s = h := by
  induction h with
  | nil => simp [hDel]
  | cons p t ih =>
    simp only [hMem, Bool.or_eq_false_iff] at hm
    simp [hDel, hm.1, ih hm.2]

theorem hMem_append_self (h : List (String × ℤ)) (s : String) (v : ℤ) :
    hMem (h ++ [(s, v)]) s = true := by
  induction h with
  | nil => simp [hMem]
  | cons p t ih => simp [hMem, ih]

/-! ### Lemmas about the two stable sorts -/

theorem mem_insertHolding (x y : HoldingE) (l : List HoldingE) :
    y ∈ insertHolding x l ↔ y = x ∨ y ∈ l := by
  induction l with
  | nil => simp [insertHolding]
  | cons z zs ih =>
    by_cases hc : x.symbol ≤ z.symbol
    · simp [insertHolding, hc]
    · simp only [insertHolding, hc, if_false, List.mem_cons, ih]
      tauto

theorem mem_sortHoldings (y : HoldingE) (l : List HoldingE) :
    y ∈ sortHoldings l ↔ y ∈ l := by
  induction l with
  | nil => simp [sortHoldings]
  | cons z zs ih =>
    simp [sortHoldings, mem_insertHolding, ih]

theorem insertTxDesc_of_lt (x : Transaction) (l : List Transaction)
    (hl : ∀ y ∈ l, x.timestamp < y.timestamp) : insertTxDesc x l = l ++ [x] := by
  induction l with
  | nil => rfl
  | cons z zs ih =>
    have hz : ¬ z.timestamp ≤ x.timestamp := by
      have := hl z (by simp)
      omega
    simp only [insertTxDesc, hz, if_false, List.cons_append, List.cons.injEq,
      true_and]
    exact ih (fun y hy => hl y (by simp [hy]))

theorem sortTxDesc_of_increasing (l : List Transaction)
    (hl : l.Pairwise (fun t u => t.timestamp < u.timestamp)) :
    sortTxDesc l = l.reverse := by
  induction l with
  | nil => rfl
  | cons x xs ih =>
    rw [List.pairwise_cons] at hl
    have hrec : sortTxDesc xs = xs.reverse := ih hl.2
    have hins : insertTxDesc x xs.reverse = xs.reverse ++ [x] :=
      insertTxDesc_of_lt x xs.reverse (fun y hy => hl.1 y (List.mem_reverse.mp hy))
    simp [sortTxDesc, hrec, hins]

/-! ### The reachable-state invariant (cash non-negative, holdings positive) -/

/-- The price provider returns only positive prices or "unknown". -/
def goodOracle (P : String → Option ℚ) : Prop :=
  ∀ s p, P s = some p → 0 < p

/-- The internal invariant: non-negative cash and only positive stored
holding quantities. -/
def Inv (a : Account) : Prop :=
  0 ≤ a.cash_balance ∧ ∀ p ∈ a.holdings, 0 < p.2

theorem inv_create (username : String) (d : ℚ) (now : ℕ) (a : Account)
    (h : Account.create username d now = .ok a) : Inv a := by
  unfold Account.create at h
  split at h
  · exact absurd h (by simp)
  · rename_i hd
    rw [Except.ok.injEq] at h
    subst h
    refine ⟨le_of_lt (lt_of_not_le hd), ?_⟩
    intro p hp
    simp at hp

theorem inv_applyOp (P : String → Option ℚ) (hP : goodOracle P) (a : Account)
    (op : Op) (now : ℕ) (hInv : Inv a)
    (hok : (applyOp P a op now).2 = none) : Inv (applyOp P a op now).1 := by
  obtain ⟨hcash, hhold⟩ := hInv
  cases op with
  | dep amount =>
    cases hd : a.deposit amount now with
    | error e => simp [applyOp, hd] at hok
    | ok r =>
      simp only [applyOp, hd]
      simp only [Account.deposit, Account.recordTransaction] at hd
      split at hd
      · exact absurd hd (by simp)
      · rename_i hamt
        rw [Except.ok.injEq] at hd
        subst hd
        refine ⟨?_, hhold⟩
        have : 0 < amount := lt_of_not_le hamt
        dsimp only
        linarith
  | wd amount =>
    cases hd : a.withdraw amount now with
    | error e => simp [applyOp, hd] at hok
    | ok r =>
      simp only [applyOp, hd]
      simp only [Account.withdraw, Account.recordTransaction] at hd
      split at hd
      · exact absurd hd (by simp)
      · split at hd
        · exact absurd hd (by simp)
        · rename_i hamt hbal
          rw [Except.ok.injEq] at hd
          subst hd
          refine ⟨?_, hhold⟩
          rw [not_lt] at hbal
          dsimp only
          linarith
  | buy symbol quantity =>
    cases hd : a.buy_shares P symbol quantity now with
    | error e => simp [applyOp, hd] at hok
    | ok r =>
      simp only [applyOp, hd]
      simp only [Account.buy_shares, Account.recordTransaction] at hd
      split at hd
      · exact absurd hd (by simp)
      · rename_i hq
        split at hd
        · exact absurd hd (by simp)
        · rename_i price hpr
          split at hd
          · exact absurd hd (by simp)
          · rename_i hcost
            rw [Except.ok.injEq] at hd
            subst hd
            rw [not_lt] at hcost
            refine ⟨by dsimp only; linarith, ?_⟩
            dsimp only
            intro p hp
            rcases mem_hAddQ a.holdings (normSym symbol) quantity p hp with hmem | ⟨h1, h2⟩
            · exact hhold p hmem
            · rw [h2]
              have hq0 : 0 < quantity := lt_of_not_le hq
              have : 0 ≤ hGet a.holdings (normSym symbol) := by
                by_cases hm : hMem a.holdings (normSym symbol) = true
                · exact le_of_lt (hGet_pos_of_mem _ _ hhold hm)
                · rw [hGet_eq_zero_of_not_mem _ _ (by simpa using hm)]
              omega
  | sell symbol quantity =>
    cases hd : a.sell_shares P symbol quantity now with
    | error e => simp [applyOp, hd] at hok
    | ok r =>
      simp only [applyOp, hd]
      simp only [Account.sell_shares, Account.recordTransaction] at hd
      split at hd
      · exact absurd hd (by simp)
      · rename_i hq
        split at hd
        · exact absurd hd (by simp)
        · rename_i howned
          split at hd
          · exact absurd hd (by simp)
          · rename_i price hpr
            rw [Except.ok.injEq] at hd
            subst hd
            have hq0 : 0 < quantity := lt_of_not_le hq
            have hqle : quantity ≤ hGet a.holdings (normSym symbol) := by
              rw [gt_iff_lt, not_lt] at howned
              exact howned
            have hprice : 0 < price := hP (normSym symbol) price hpr
            constructor
            · dsimp only
              have : 0 < (quantity : ℚ) * price := by positivity
              linarith
            · dsimp only
              split
              · intro p hp
                exact hhold p (mem_hDel_hAddQ a.holdings (normSym symbol) (-quantity) p hp)
              · rename_i hnz
                intro p hp
                rcases mem_hAddQ a.holdings (normSym symbol) (-quantity) p hp with hmem | ⟨h1, h2⟩
                · exact hhold p hmem
                · rw [h2]
                  have hne : hGet a.holdings (normSym symbol) + (-quantity) ≠ 0 := by
                    intro he
                    apply hnz
                    rw [hGet_hAddQ_self, he]
                    rfl
                  omega

theorem inv_reachable (P : String → Option ℚ) (hP : goodOracle P)
    (a : Account) (ha : Reachable P a) : Inv a := by
  induction ha with
  | created username d now b h => exact inv_create username d now b h
  | step b op now hb h ih => exact inv_applyOp P hP b op now ih h

/-! ### Spec-side formulations used for refinement comparisons -/

/-- The spec's formula for net deposits, stated independently of the code
path: the signed sum over the whole log of `+total_amount` for each DEPOSIT
and `-total_amount` for each WITHDRAWAL. -/
def specNetDeposits (txs : List Transaction) : ℚ :=
  (txs.map (fun tx =>
    match tx.type with
    | .DEPOSIT => tx.total_amount
    | .WITHDRAWAL => -tx.total_amount
    | .BUY => 0
    | .SELL => 0)).sum

theorem filter_sums_eq_specNetDeposits (txs : List Transaction) :
    ((txs.filter (fun tx => tx.type == TxType.DEPOSIT)).map
        Transaction.total_amount).sum
      - ((txs.filter (fun tx => tx.type == TxType.WITHDRAWAL)).map
        Transaction.total_amount).sum
    = specNetDeposits txs := by
  induction txs with
  | nil => simp [specNetDeposits]
  | cons t ts ih =>
    cases htype : t.type <;>
      simp only [specNetDeposits, List.filter_cons, htype, List.map_cons,
        List.sum_cons, beq_iff_eq, reduceCtorEq, if_true, if_false,
        reduceIte] at ih ⊢ <;>
      linarith [ih]

/-! ### Claim theorems -/

/-- C1 as amended.  For every reachable account state — starting from a
successfully created account and applying any sequence of deposit /
withdraw / buy_shares / sell_shares calls whose monetary amounts are
finite numbers treated exactly, with a price provider that returns only
positive prices or unknown — the cash balance is non-negative and the
holdings dict contains a symbol iff its stored quantity is positive, so
no zero or negative quantity entry is ever stored.  (Unrestricted, the
claim fails on the program: the `<= 0` guards are false for NaN, so a
NaN deposit succeeds and makes the cash balance NaN, which is not ≥ 0 —
refuted below at a concrete float-level run.) -/
theorem C1_reachable_state_invariant (P : String → Option ℚ)
    (hP : ∀ s p, P s = some p → 0 < p) (a : Account) (ha : Reachable P a) :
    0 ≤ a.cash_balance ∧
      ∀ s, hMem a.holdings s = true ↔ 0 < hGet a.holdings s := by
  obtain ⟨hc, hh⟩ := inv_reachable P hP a ha
  exact ⟨hc, fun s => hMem_iff_hGet_pos a.holdings s hh⟩

/-- The all-positive price provider used by concrete witnesses. -/
def oracleW : String → Option ℚ := fun _ => some 1

/-- The account produced by `Account.create "u" 100 0`. -/
def acctW : Account :=
  { username := "u", cash_balance := 100, holdings := [],
    transactions := [⟨0, .DEPOSIT, none, none, none, 100⟩] }

/-- Witness for C1 at a concrete freshly created account. -/
theorem C1_witness :
    0 ≤ acctW.cash_balance ∧
      ∀ s, hMem acctW.holdings s = true ↔ 0 < hGet acctW.holdings s :=
  C1_reachable_state_invariant oracleW
    (by
      intro s p h
      have hp : (1 : ℚ) = p := by simpa [oracleW] using h
      rw [← hp]
      norm_num)
    acctW
    (Reachable.created "u" 100 0 acctW rfl)

/-- C2.  Every mutating call is all-or-nothing: a call that fails with any
error leaves the account (cash balance, holdings and transaction log)
exactly unchanged, and a call that succeeds appends exactly one
transaction to the log. -/
theorem C2_all_or_nothing (P : String → Option ℚ) (a : Account) (op : Op)
    (now : ℕ) :
    ((applyOp P a op now).2.isSome = true → (applyOp P a op now).1 = a) ∧
    ((applyOp P a op now).2 = none →
      (applyOp P a op now).1.transactions.length
        = a.transactions.length + 1) := by
  cases op with
  | dep amount =>
    cases hd : a.deposit amount now with
    | error e => simp [applyOp, hd]
    | ok r =>
      simp only [applyOp, hd]
      refine ⟨by simp, fun _ => ?_⟩
      simp only [Account.deposit, Account.recordTransaction] at hd
      split at hd
      · exact absurd hd (by simp)
      · rw [Except.ok.injEq] at hd
        subst hd
        simp
  | wd amount =>
    cases hd : a.withdraw amount now with
    | error e => simp [applyOp, hd]
    | ok r =>
      simp only [applyOp, hd]
      refine ⟨by simp, fun _ => ?_⟩
      simp only [Account.withdraw, Account.recordTransaction] at hd
      split at hd
      · exact absurd hd (by simp)
      · split at hd
        · exact absurd hd (by simp)
        · rw [Except.ok.injEq] at hd
          subst hd
          simp
  | buy symbol quantity =>
    cases hd : a.buy_shares P symbol quantity now with
    | error e => simp [applyOp, hd]
    | ok r =>
      simp only [applyOp, hd]
      refine ⟨by simp, fun _ => ?_⟩
      simp only [Account.buy_shares, Account.recordTransaction] at hd
      split at hd
      · exact absurd hd (by simp)
      · split at hd
        · exact absurd hd (by simp)
        · split at hd
          · exact absurd hd (by simp)
          · rw [Except.ok.injEq] at hd
            subst hd
            simp
  | sell symbol quantity =>
    cases hd : a.sell_shares P symbol quantity now with
    | error e => simp [applyOp, hd]
    | ok r =>
      simp only [applyOp, hd]
      refine ⟨by simp, fun _ => ?_⟩
      simp only [Account.sell_shares, Account.recordTransaction] at hd
      split at hd
      · exact absurd hd (by simp)
      · split at hd
        · exact absurd hd (by simp)
        · split at hd
          · exact absurd hd (by simp)
          · rw [Except.ok.injEq] at hd
            subst hd
            simp

/-- Witness for C2, exercising both arms at concrete inputs: a withdrawal
above the balance fails and changes nothing, and a valid deposit appends
exactly one transaction. -/
theorem C2_witness :
    ((applyOp oracleW acctW (Op.wd 200) 1).2.isSome = true →
        (applyOp oracleW acctW (Op.wd 200) 1).1 = acctW) ∧
    ((applyOp oracleW acctW (Op.wd 200) 1).2 = none →
      (applyOp oracleW acctW (Op.wd 200) 1).1.transactions.length
        = acctW.transactions.length + 1) :=
  C2_all_or_nothing oracleW acctW (Op.wd 200) 1

/-- C3.  The summary's `net_deposits` is recomputed from the full
transaction log (Σ DEPOSIT totals − Σ WITHDRAWAL totals) and
`profit_loss` equals `total_portfolio_value − net_deposits`. -/
theorem C3_net_deposits_from_log (P : String → Option ℚ) (a : Account) :
    (a.get_portfolio_summary P).net_deposits = specNetDeposits a.transactions ∧
    (a.get_portfolio_summary P).profit_loss =
      (a.get_portfolio_summary P).total_portfolio_value
        - (a.get_portfolio_summary P).net_deposits := by
  constructor
  · simp only [Account.get_portfolio_summary]
    exact filter_sums_eq_specNetDeposits a.transactions
  · rfl

/-- An account two of whose transactions carry identical timestamps
(`datetime.now()` has finite resolution; the copy in `output/1763111947`
records transactions back-to-back with no delay at all). -/
def acctTie : Account :=
  { username := "u", cash_balance := 3, holdings := [],
    transactions :=
      [⟨7, .DEPOSIT, none, none, none, 1⟩,
       ⟨7, .DEPOSIT, none, none, none, 2⟩] }

/-- C4 counterexample.  With two transactions at the same timestamp the
history is NOT the exact reverse of insertion order: Python's stable
`sorted(..., key=timestamp, reverse=True)` keeps equal-timestamp entries
in insertion order, and no per-account sequence counter exists in the
code to break the tie. -/
theorem C4_counterexample :
    acctTie.get_transaction_history ≠ acctTie.transactions.reverse := by
  intro h
  have h0 : acctTie.get_transaction_history = acctTie.transactions := rfl
  rw [h0] at h
  have := congrArg (fun l => (l.map Transaction.total_amount)) h
  simp [acctTie] at this

/-- C4 as amended.  The history is the log stably sorted by wall-clock
timestamp, most recent first; whenever the timestamps are strictly
increasing in insertion order (the primary copy sleeps 1 ms per record to
encourage this) it equals the exact reverse of insertion order.  The
ordering key is the timestamp — there is no sequence counter — and two
transactions with identical timestamps appear in insertion order, not
reversed. -/
theorem C4_amended_history_order (a : Account)
    (hts : a.transactions.Pairwise (fun t u => t.timestamp < u.timestamp)) :
    a.get_transaction_history = a.transactions.reverse :=
  sortTxDesc_of_increasing a.transactions hts

/-- An account whose transaction timestamps strictly increase. -/
def acctInc : Account :=
  { username := "u", cash_balance := 3, holdings := [],
    transactions :=
      [⟨1, .DEPOSIT, none, none, none, 1⟩,
       ⟨2, .DEPOSIT, none, none, none, 2⟩] }

/-- Witness for the amended C4 at a concrete account with strictly
increasing timestamps. -/
theorem C4_witness : acctInc.get_transaction_history = acctInc.transactions.reverse :=
  C4_amended_history_order acctInc
    (by simp [acctInc, List.pairwise_cons])

/-- C5 as amended.  Round trip in exact monetary arithmetic: if the
provider knows the normalized symbol at a fixed positive price, the
quantity is positive, the cost is affordable, and the symbol was not held
before, then buying quantity `q` and immediately selling quantity `q` at
the same price both succeed, restore the cash balance to its exact
pre-buy value, and leave no entry for the symbol in the holdings dict
(the holdings dict is exactly what it was).  (With the source's IEEE
binary64 cash arithmetic the restoration is only approximate — its own
self-test compares balances with a `1e-9` tolerance — and the exact form
of the claim is refuted below at a concrete double-rounding run.) -/
theorem C5_buy_sell_round_trip (P : String → Option ℚ) (a : Account)
    (S : String) (q : ℤ) (price : ℚ) (now1 now2 : ℕ)
    (hpr : P (normSym S) = some price) (hprice : 0 < price) (hq : 0 < q)
    (hafford : (q : ℚ) * price ≤ a.cash_balance)
    (hnot : hMem a.holdings (normSym S) = false) :
    (applyOp P a (Op.buy S q) now1).2 = none ∧
    (applyOp P (applyOp P a (Op.buy S q) now1).1 (Op.sell S q) now2).2
        = none ∧
    (applyOp P (applyOp P a (Op.buy S q) now1).1 (Op.sell S q)
        now2).1.cash_balance = a.cash_balance ∧
    (applyOp P (applyOp P a (Op.buy S q) now1).1 (Op.sell S q)
        now2).1.holdings = a.holdings ∧
    hMem (applyOp P (applyOp P a (Op.buy S q) now1).1 (Op.sell S q)
        now2).1.holdings (normSym S) = false := by
  have hq0 : ¬ q ≤ 0 := not_le.mpr hq
  have hcost : ¬ ((q : ℚ) * price > a.cash_balance) := not_lt.mpr hafford
  have hbuy : a.buy_shares P S q now1 = .ok
      (⟨normSym S, q, price, (q : ℚ) * price⟩,
       { username := a.username
         cash_balance := a.cash_balance - (q : ℚ) * price
         holdings := a.holdings ++ [(normSym S, q)]
         transactions := a.transactions ++
           [⟨now1, .BUY, some (normSym S), some q, some price,
             (q : ℚ) * price⟩] }) := by
    simp [Account.buy_shares, hq0, hpr, hcost, Account.recordTransaction,
      hAddQ_not_mem a.holdings (normSym S) q hnot]
  have hown : hGet (a.holdings ++ [(normSym S, q)]) (normSym S) = q :=
    hGet_append_not_mem a.holdings (normSym S) q hnot
  have hsub : hAddQ (a.holdings ++ [(normSym S, q)]) (normSym S) (-q)
      = a.holdings ++ [(normSym S, 0)] := by
    rw [hAddQ_append_self a.holdings (normSym S) q (-q) hnot]
    norm_num
  have hzero : hGet (a.holdings ++ [(normSym S, 0)]) (normSym S) = 0 :=
    hGet_append_not_mem a.holdings (normSym S) 0 hnot
  have hdel : hDel (a.holdings ++ [(normSym S, 0)]) (normSym S) = a.holdings :=
    hDel_append_self a.holdings (normSym S) 0 hnot
  have hsell : Account.sell_shares P
      { username := a.username
        cash_balance := a.cash_balance - (q : ℚ) * price
        holdings := a.holdings ++ [(normSym S, q)]
        transactions := a.transactions ++
          [⟨now1, .BUY, some (normSym S), some q, some price,
            (q : ℚ) * price⟩] } S q now2 = .ok
      (⟨normSym S, q, price, (q : ℚ) * price⟩,
       { username := a.username
         cash_balance := a.cash_balance - (q : ℚ) * price + (q : ℚ) * price
         holdings := a.holdings
         transactions := (a.transactions ++
           [⟨now1, .BUY, some (normSym S), some q, some price,
             (q : ℚ) * price⟩]) ++
           [⟨now2, .SELL, some (normSym S), some q, some price,
             (q : ℚ) * price⟩] }) := by
    simp [Account.sell_shares, hq0, hown, hpr, hsub, hzero, hdel,
      Account.recordTransaction]
  refine ⟨?_, ?_, ?_, ?_, ?_⟩ <;>
    simp [applyOp, hbuy, hsell, hnot]

/-- Witness for C5: buying then selling 5 shares at price 1 on the fresh
account restores the cash balance and leaves holdings empty. -/
theorem C5_witness :
    (applyOp oracleW acctW (Op.buy "AAPL" 5) 1).2 = none ∧
    (applyOp oracleW (applyOp oracleW acctW (Op.buy "AAPL" 5) 1).1
        (Op.sell "AAPL" 5) 2).2 = none ∧
    (applyOp oracleW (applyOp oracleW acctW (Op.buy "AAPL" 5) 1).1
        (Op.sell "AAPL" 5) 2).1.cash_balance = acctW.cash_balance ∧
    (applyOp oracleW (applyOp oracleW acctW (Op.buy "AAPL" 5) 1).1
        (Op.sell "AAPL" 5) 2).1.holdings = acctW.holdings ∧
    hMem (applyOp oracleW (applyOp oracleW acctW (Op.buy "AAPL" 5) 1).1
        (Op.sell "AAPL" 5) 2).1.holdings (normSym "AAPL") = false :=
  C5_buy_sell_round_trip oracleW acctW "AAPL" 5 1 1 2 rfl (by norm_num)
    (by norm_num) (by norm_num [acctW]) rfl

/-! ### Python float model for the creation-validation claim

`Account.__init__` validates with `not isinstance(initial_deposit, (int,
float)) or initial_deposit <= 0`.  Every float — including `inf` and `nan`
— passes the isinstance test, so the guard reduces to the IEEE-754
comparison `initial_deposit <= 0`, which is false for NaN and for +inf. -/

/-- A Python float value: NaN, the two infinities, or a finite value
(kept exact). -/
inductive PyFloat where
  | nan
  | inf
  | ninf
  | val (q : ℚ)
deriving DecidableEq

/-- The IEEE-754 comparison `x <= 0` as Python evaluates it: false for
NaN (all NaN comparisons are false), false for +inf, true for -inf, and
the exact comparison for finite values. -/
def PyFloat.leZero : PyFloat → Bool
  | .nan => false
  | .inf => false
  | .ninf => true
  | .val q => decide (q ≤ 0)

/-- A transaction whose amounts are Python floats. -/
structure TransactionF where
  timestamp : ℕ
  type : TxType
  symbol : Option String
  quantity : Option ℤ
  price_per_share : Option PyFloat
  total_amount : PyFloat
deriving DecidableEq

/-- Account state with a Python-float cash balance. -/
structure AccountF where
  username : String
  cash_balance : PyFloat
  holdings : List (String × ℤ)
  transactions : List TransactionF
deriving DecidableEq

/-- `Account.__init__` over Python floats: the guard
`initial_deposit <= 0` is the whole validation; on success the balance is
the deposit, holdings start empty, and one DEPOSIT transaction is
recorded. -/
def createF (username : String) (initial_deposit : PyFloat) (now : ℕ) :
    Except AccountErr AccountF :=
  if initial_deposit.leZero then .error .ValueErr
  else .ok
    { username := username
      cash_balance := initial_deposit
      holdings := []
      transactions := [⟨now, .DEPOSIT, none, none, none, initial_deposit⟩] }

/-- `True` exactly for a successful (non-error) result. -/
def exceptIsOk : Except AccountErr AccountF → Bool
  | .ok _ => true
  | .error _ => false

/-- C6 counterexample.  Creating an account with initial deposit +inf — a
non-finite value, not a "positive finite number" — succeeds instead of
failing: `inf <= 0` is false, so the `ValueError` guard does not fire
(and likewise for NaN).  This refutes the claim that creation fails for
every non-finite initial deposit. -/
theorem C6_counterexample : exceptIsOk (createF "u" PyFloat.inf 0) = true := by
  decide

/-- C6 as amended.  Creation fails with `ValueError` (the code's
validation error) exactly when `initial_deposit <= 0` evaluates true
under IEEE float comparison — i.e. for zero, negative finite values and
-inf; the non-finite values +inf and NaN are accepted, because the
comparison is false for them.  On success the account has cash balance
equal to the initial deposit, empty holdings, and exactly one DEPOSIT
transaction with that total amount. -/
theorem C6_amended_create_validation (u : String) (d : PyFloat) (now : ℕ) :
    (d.leZero = true → createF u d now = .error .ValueErr) ∧
    (d.leZero = false → createF u d now = .ok
      { username := u
        cash_balance := d
        holdings := []
        transactions := [⟨now, .DEPOSIT, none, none, none, d⟩] }) ∧
    PyFloat.inf.leZero = false ∧ PyFloat.nan.leZero = false := by
  refine ⟨fun h => ?_, fun h => ?_, rfl, rfl⟩
  · simp [createF, h]
  · simp [createF, h]

/-- Witness for the amended C6: a zero initial deposit is rejected with
`ValueError`. -/
theorem C6_witness :
    createF "u" (PyFloat.val 0) 0 = .error AccountErr.ValueErr :=
  (C6_amended_create_validation "u" (PyFloat.val 0) 0).1 (by decide)

/-- C7.  `sell_shares` checks the owned quantity of the normalized symbol
before consulting the price provider: with a valid positive quantity, if
the request exceeds the owned quantity the call fails with
`InsufficientSharesError` for EVERY price provider (the oracle is never
consulted), and `InvalidSymbolError` arises only when enough shares are
owned and the provider reports the normalized symbol unknown. -/
theorem C7_sell_checks_shares_before_oracle (P : String → Option ℚ)
    (a : Account) (S : String) (q : ℤ) (now : ℕ) (hq : 0 < q) :
    (hGet a.holdings (normSym S) < q →
      ∀ P2 : String → Option ℚ,
        a.sell_shares P2 S q now = .error .InsufficientShares) ∧
    (a.sell_shares P S q now = .error .InvalidSymbol →
      q ≤ hGet a.holdings (normSym S) ∧ P (normSym S) = none) := by
  have hq0 : ¬ q ≤ 0 := not_le.mpr hq
  constructor
  · intro hlt P2
    simp [Account.sell_shares, hq0, hlt]
  · intro h
    simp only [Account.sell_shares, hq0, if_false] at h
    split at h
    · simp at h
    · rename_i howned
      split at h
      · rename_i hpr
        rw [gt_iff_lt, not_lt] at howned
        exact ⟨howned, hpr⟩
      · simp at h

/-- Witness for C7: selling one share of an unheld symbol fails with
`InsufficientSharesError`, with an oracle that does not know the symbol
either. -/
theorem C7_witness :
    Account.sell_shares (fun _ => none) acctW "AAPL" 1 3
      = .error AccountErr.InsufficientShares :=
  (C7_sell_checks_shares_before_oracle (fun _ => none) acctW "AAPL" 1 3
      (by norm_num)).1 (by decide) (fun _ => none)

/-- A price provider that knows only "AAPL". -/
def oracle8 : String → Option ℚ := fun s => if s == "AAPL" then some 2 else none

/-- C8.  The portfolio summary lists every held symbol with its quantity —
also those whose price the provider does not know — and a holding with an
unknown price contributes exactly zero to `total_shares_value` and
`total_portfolio_value` while still appearing in the listing. -/
theorem C8_summary_lists_unpriced_holdings (P : String → Option ℚ)
    (a : Account) :
    (∀ p ∈ a.holdings, ∃ e ∈ (a.get_portfolio_summary P).holdings,
        e.symbol = p.1 ∧ e.quantity = p.2) ∧
    (∀ s q, P s = none →
      ((Account.mk a.username a.cash_balance (a.holdings ++ [(s, q)])
          a.transactions).get_portfolio_summary P).total_shares_value
        = (a.get_portfolio_summary P).total_shares_value ∧
      ((Account.mk a.username a.cash_balance (a.holdings ++ [(s, q)])
          a.transactions).get_portfolio_summary P).total_portfolio_value
        = (a.get_portfolio_summary P).total_portfolio_value ∧
      ∃ e ∈ ((Account.mk a.username a.cash_balance (a.holdings ++ [(s, q)])
          a.transactions).get_portfolio_summary P).holdings,
        e.symbol = s ∧ e.quantity = q) := by
  constructor
  · intro p hp
    refine ⟨⟨p.1, p.2⟩, ?_, rfl, rfl⟩
    simp only [Account.get_portfolio_summary]
    rw [mem_sortHoldings]
    exact List.mem_map_of_mem _ hp
  · intro s q hs
    refine ⟨?_, ?_, ?_⟩
    · simp [Account.get_portfolio_summary, hs]
    · simp [Account.get_portfolio_summary, hs]
    · refine ⟨⟨s, q⟩, ?_, rfl, rfl⟩
      simp only [Account.get_portfolio_summary]
      rw [mem_sortHoldings]
      simp

/-- Witness for C8: appending an unpriced "FAKE" holding leaves both value
totals unchanged and the holding still appears in the listing. -/
theorem C8_witness :
    ((Account.mk acctW.username acctW.cash_balance
        (acctW.holdings ++ [("FAKE", 3)])
        acctW.transactions).get_portfolio_summary oracle8).total_shares_value
      = (acctW.get_portfolio_summary oracle8).total_shares_value ∧
    ((Account.mk acctW.username acctW.cash_balance
        (acctW.holdings ++ [("FAKE", 3)])
        acctW.transactions).get_portfolio_summary oracle8).total_portfolio_value
      = (acctW.get_portfolio_summary oracle8).total_portfolio_value ∧
    ∃ e ∈ ((Account.mk acctW.username acctW.cash_balance
        (acctW.holdings ++ [("FAKE", 3)])
        acctW.transactions).get_portfolio_summary oracle8).holdings,
      e.symbol = "FAKE" ∧ e.quantity = 3 :=
  (C8_summary_lists_unpriced_holdings oracle8 acctW).2 "FAKE" 3 rfl

/-- C9.  Frame conditions: a successful deposit or withdrawal leaves the
holdings dict untouched; a successful buy or sell changes at most the
entry of the normalized requested symbol, leaving every other symbol's
quantity as it was; and no operation changes the username. -/
theorem C9_frame_conditions (P : String → Option ℚ) (a : Account) (now : ℕ) :
    (∀ amount r b, a.deposit amount now = .ok (r, b) →
        b.holdings = a.holdings ∧ b.username = a.username) ∧
    (∀ amount r b, a.withdraw amount now = .ok (r, b) →
        b.holdings = a.holdings ∧ b.username = a.username) ∧
    (∀ S q rb b, a.buy_shares P S q now = .ok (rb, b) →
        b.username = a.username ∧
        ∀ t, t ≠ normSym S → hGet b.holdings t = hGet a.holdings t) ∧
    (∀ S q rs b, a.sell_shares P S q now = .ok (rs, b) →
        b.username = a.username ∧
        ∀ t, t ≠ normSym S → hGet b.holdings t = hGet a.holdings t) := by
  refine ⟨?_, ?_, ?_, ?_⟩
  · intro amount r b hd
    simp only [Account.deposit, Account.recordTransaction] at hd
    split at hd
    · exact absurd hd (by simp)
    · rw [Except.ok.injEq, Prod.mk.injEq] at hd
      rw [← hd.2]
      exact ⟨rfl, rfl⟩
  · intro amount r b hd
    simp only [Account.withdraw, Account.recordTransaction] at hd
    split at hd
    · exact absurd hd (by simp)
    · split at hd
      · exact absurd hd (by simp)
      · rw [Except.ok.injEq, Prod.mk.injEq] at hd
        rw [← hd.2]
        exact ⟨rfl, rfl⟩
  · intro S q rb b hd
    simp only [Account.buy_shares, Account.recordTransaction] at hd
    split at hd
    · exact absurd hd (by simp)
    · split at hd
      · exact absurd hd (by simp)
      · split at hd
        · exact absurd hd (by simp)
        · rw [Except.ok.injEq, Prod.mk.injEq] at hd
          rw [← hd.2]
          refine ⟨rfl, fun t ht => ?_⟩
          exact hGet_hAddQ_ne a.holdings (normSym S) t q ht
  · intro S q rs b hd
    simp only [Account.sell_shares, Account.recordTransaction] at hd
    split at hd
    · exact absurd hd (by simp)
    · split at hd
      · exact absurd hd (by simp)
      · split at hd
        · exact absurd hd (by simp)
        · rw [Except.ok.injEq, Prod.mk.injEq] at hd
          rw [← hd.2]
          refine ⟨rfl, fun t ht => ?_⟩
          dsimp only
          split
          · rw [hGet_hDel_ne _ _ _ ht,
              hGet_hAddQ_ne a.holdings (normSym S) t (-q) ht]
          · exact hGet_hAddQ_ne a.holdings (normSym S) t (-q) ht

/-- The account after depositing 5 into the fresh witness account. -/
def acctDep : Account :=
  { username := "u", cash_balance := 105, holdings := [],
    transactions := [⟨0, .DEPOSIT, none, none, none, 100⟩,
                     ⟨1, .DEPOSIT, none, none, none, 5⟩] }

/-- Witness for C9 at a concrete successful deposit. -/
theorem C9_witness :
    acctDep.holdings = acctW.holdings ∧ acctDep.username = acctW.username :=
  (C9_frame_conditions oracleW acctW 1).1 5 105 acctDep
    (by norm_num [Account.deposit, acctW, acctDep, Account.recordTransaction])

/-- C10.  On a freshly created account (valid positive deposit `d`, no
further operations) the portfolio summary reports net deposits `d`, zero
shares value, total portfolio value `d` and zero profit/loss, because the
initial deposit is itself logged as a DEPOSIT transaction and holdings
start empty. -/
theorem C10_fresh_account_summary (u : String) (d : ℚ) (now : ℕ)
    (P : String → Option ℚ) (a : Account) (hd : 0 < d)
    (h : Account.create u d now = .ok a) :
    (a.get_portfolio_summary P).net_deposits = d ∧
    (a.get_portfolio_summary P).total_shares_value = 0 ∧
    (a.get_portfolio_summary P).total_portfolio_value = d ∧
    (a.get_portfolio_summary P).profit_loss = 0 := by
  simp only [Account.create] at h
  split at h
  · exact absurd h (by simp)
  · rw [Except.ok.injEq] at h
    subst h
    refine ⟨?_, ?_, ?_, ?_⟩ <;>
      simp [Account.get_portfolio_summary]

/-- Witness for C10 on the concrete fresh account with deposit 100. -/
theorem C10_witness :
    (acctW.get_portfolio_summary oracleW).net_deposits = 100 ∧
    (acctW.get_portfolio_summary oracleW).total_shares_value = 0 ∧
    (acctW.get_portfolio_summary oracleW).total_portfolio_value = 100 ∧
    (acctW.get_portfolio_summary oracleW).profit_loss = 0 :=
  C10_fresh_account_summary "u" 100 0 oracleW acctW (by norm_num) rfl

/-! ### Float-level refutations

Two properties that hold in exact arithmetic fail on the source's IEEE
doubles: the `<= 0` validation guards are false for NaN, so NaN cash is
reachable, and binary64 round-to-nearest-even can fail to restore a cash
balance exactly.  The models below keep finite values exact where the
source's behaviour is exact, and make the special values and the binade
rounding explicit where it is not. -/

/-- IEEE float addition on Python floats: NaN propagates, `inf + -inf`
is NaN, an infinity absorbs any finite value; finite plus finite is kept
exact (no overflow occurs in the values used here). -/
def PyFloat.add : PyFloat → PyFloat → PyFloat
  | .nan, _ => .nan
  | _, .nan => .nan
  | .inf, .ninf => .nan
  | .ninf, .inf => .nan
  | .inf, _ => .inf
  | _, .inf => .inf
  | .ninf, _ => .ninf
  | _, .ninf => .ninf
  | .val a, .val b => .val (a + b)

/-- The IEEE comparison `x >= 0` as Python evaluates it: false for NaN
(every NaN comparison is false), true for +inf, false for -inf, exact
otherwise. -/
def PyFloat.geZero : PyFloat → Bool
  | .nan => false
  | .inf => true
  | .ninf => false
  | .val q => decide (0 ≤ q)

/-- `Account.deposit` over Python floats: the guard `amount <= 0` is
false for NaN (and for +inf), so such a deposit passes validation, is
added to the cash balance, and is logged. -/
def AccountF.depositF (a : AccountF) (amount : PyFloat) (now : ℕ) :
    Except AccountErr (PyFloat × AccountF) :=
  if amount.leZero then .error .ValueErr
  else
    let a1 := { a with cash_balance := a.cash_balance.add amount }
    let a2 := { a1 with transactions := a1.transactions ++
      [⟨now, .DEPOSIT, none, none, none, amount⟩] }
    .ok (a2.cash_balance, a2)

/-- The float-level account freshly created with deposit 100. -/
def acctF0 : AccountF :=
  { username := "u", cash_balance := .val 100, holdings := [],
    transactions := [⟨0, .DEPOSIT, none, none, none, .val 100⟩] }

/-- The same account after a successful `deposit(float('nan'))`. -/
def acctFNan : AccountF :=
  { username := "u", cash_balance := .nan, holdings := [],
    transactions := [⟨0, .DEPOSIT, none, none, none, .val 100⟩,
                     ⟨1, .DEPOSIT, none, none, none, .nan⟩] }

/-- C1 counterexample.  From a successfully created account, the single
deposit call `deposit(float('nan'))` SUCCEEDS — `nan <= 0` is false, so
the validation guard does not fire — and leaves `cash_balance = NaN`,
for which `cash_balance >= 0` is false.  A state violating the claimed
invariant is therefore reachable by one call of the claim's operation
sequence (the price oracle is never consulted by deposit), refuting the
claim as stated. -/
theorem C1_counterexample :
    createF "u" (PyFloat.val 100) 0 = .ok acctF0 ∧
    acctF0.depositF PyFloat.nan 1 = .ok (PyFloat.nan, acctFNan) ∧
    acctFNan.cash_balance.geZero = false :=
  ⟨rfl, rfl, rfl⟩

/-- `2^k` as a positive rational, for an integer exponent. -/
def pow2 (k : ℤ) : ℚ :=
  if 0 ≤ k then (2 : ℚ) ^ k.toNat else 1 / (2 : ℚ) ^ (-k).toNat

/-- Fuel-bounded upward scan for the binade of `q ≥ 1`, maintaining
`p = 2^(e+1)`: climbs while `p ≤ q` and returns the `e` with
`2^e ≤ q < 2^(e+1)`. -/
def qExpUp : ℕ → ℚ → ℚ → ℤ → ℤ
  | 0, _, _, e => e
  | fuel + 1, q, p, e => if p ≤ q then qExpUp fuel q (p * 2) (e + 1) else e

/-- Fuel-bounded downward scan for the binade of `0 < q < 1`,
maintaining `q < p = 2^e`: descends until `2^(e-1) ≤ q` and returns that
`e - 1`. -/
def qExpDown : ℕ → ℚ → ℚ → ℤ → ℤ
  | 0, _, _, e => e
  | fuel + 1, q, p, e =>
      if p / 2 ≤ q then e - 1 else qExpDown fuel q (p / 2) (e - 1)

/-- The binade exponent of a positive rational: the `e` with
`2^e ≤ q < 2^(e+1)`.  The scan carries fuel 60, covering magnitudes
between `2^-60` and `2^60` — ample for every value the concrete runs
below inhabit (binary64's full exponent range would need fuel 1100 but
never arises here). -/
def qExp (q : ℚ) : ℤ :=
  if 1 ≤ q then qExpUp 60 q 2 0 else qExpDown 60 q 1 0

/-- Floor of a non-negative rational. -/
def qFloor (s : ℚ) : ℤ := ⌊s⌋

/-- Rounds a positive `x` to the nearest multiple of `ulp`, ties to the
even multiple — IEEE round-to-nearest-even on a fixed grid. -/
def roundHalfEven (ulp x : ℚ) : ℚ :=
  let s := x / ulp
  let f := qFloor s
  let frac := s - (f : ℚ)
  let n : ℤ :=
    if frac < 1 / 2 then f
    else if 1 / 2 < frac then f + 1
    else if f % 2 = 0 then f else f + 1
  (n : ℚ) * ulp

/-- Rounds an exact rational to IEEE binary64: 53-bit significand, round
to nearest, ties to even.  Modelled for the normal range — overflow and
subnormals do not arise in the values used here. -/
def roundQ (x : ℚ) : ℚ :=
  if x = 0 then 0
  else if 0 < x then roundHalfEven (pow2 (qExp x - 52)) x
  else -roundHalfEven (pow2 (qExp (-x) - 52)) (-x)

/-- Python float addition of finite doubles. -/
def fadd (a b : ℚ) : ℚ := roundQ (a + b)

/-- Python float subtraction of finite doubles. -/
def fsub (a b : ℚ) : ℚ := roundQ (a - b)

/-- Python float multiplication of finite doubles. -/
def fmul (a b : ℚ) : ℚ := roundQ (a * b)

/-- `Account.buy_shares` with the monetary arithmetic performed in IEEE
binary64, as the source's floats do: `total_cost = quantity * price` and
`self.cash_balance -= total_cost` both round to nearest-even. -/
def Account.buy_sharesD (P : String → Option ℚ) (a : Account)
    (symbol : String) (quantity : ℤ) (now : ℕ) :
    Except AccountErr (BuyReceipt × Account) :=
  if quantity ≤ 0 then .error .ValueErr
  else
    let clean_symbol := normSym symbol
    match P clean_symbol with
    | none => .error .InvalidSymbol
    | some price =>
      let total_cost : ℚ := fmul (quantity : ℚ) price
      if total_cost > a.cash_balance then .error .InsufficientFunds
      else
        let a1 := { a with
          cash_balance := fsub a.cash_balance total_cost
          holdings := hAddQ a.holdings clean_symbol quantity }
        let a2 := a1.recordTransaction now .BUY total_cost
          (some clean_symbol) (some quantity) (some price)
        .ok (⟨clean_symbol, quantity, price, total_cost⟩, a2)

/-- `Account.sell_shares` with the monetary arithmetic performed in IEEE
binary64, as the source's floats do: `total_proceeds = quantity * price`
and `self.cash_balance += total_proceeds` both round to nearest-even. -/
def Account.sell_sharesD (P : String → Option ℚ) (a : Account)
    (symbol : String) (quantity : ℤ) (now : ℕ) :
    Except AccountErr (SellReceipt × Account) :=
  if quantity ≤ 0 then .error .ValueErr
  else
    let clean_symbol := normSym symbol
    let owned_quantity := hGet a.holdings clean_symbol
    if quantity > owned_quantity then .error .InsufficientShares
    else
      match P clean_symbol with
      | none => .error .InvalidSymbol
      | some price =>
        let total_proceeds : ℚ := fmul (quantity : ℚ) price
        let h1 := hAddQ a.holdings clean_symbol (-quantity)
        let h2 := if hGet h1 clean_symbol == 0 then hDel h1 clean_symbol else h1
        let a1 := { a with
          cash_balance := fadd a.cash_balance total_proceeds
          holdings := h2 }
        let a2 := a1.recordTransaction now .SELL total_proceeds
          (some clean_symbol) (some quantity) (some price)
        .ok (⟨clean_symbol, quantity, price, total_proceeds⟩, a2)

/-- A price provider quoting one half for "AAPL". -/
def oracleHalf : String → Option ℚ :=
  fun s => if s == "AAPL" then some (1 / 2) else none

/-- `2^52 + 1`: an exactly representable double whose unit in the last
place is 1. -/
def bigCash : ℚ := 4503599627370497

/-- An account holding nothing, with cash `2^52 + 1`. -/
def acctBig : Account :=
  { username := "u", cash_balance := bigCash, holdings := [],
    transactions := [⟨0, .DEPOSIT, none, none, none, bigCash⟩] }

/-- `acctBig` after buying one "AAPL" share at price 1/2 in binary64:
`(2^52 + 1) - 0.5 = 2^52 + 0.5` rounds, ties-to-even, DOWN to `2^52`. -/
def acctMidD : Account :=
  { username := "u", cash_balance := 4503599627370496,
    holdings := [("AAPL", 1)],
    transactions := [⟨0, .DEPOSIT, none, none, none, bigCash⟩,
                     ⟨1, .BUY, some "AAPL", some 1, some (1 / 2), 1 / 2⟩] }

set_option maxHeartbeats 4000000
set_option maxRecDepth 8000

/-- `acctMidD` after selling the share back at the same price:
`2^52 + 0.5` again rounds, ties-to-even, down to `2^52`. -/
def acctEndD : Account :=
  { username := "u", cash_balance := 4503599627370496, holdings := [],
    transactions := [⟨0, .DEPOSIT, none, none, none, bigCash⟩,
                     ⟨1, .BUY, some "AAPL", some 1, some (1 / 2), 1 / 2⟩,
                     ⟨2, .SELL, some "AAPL", some 1, some (1 / 2), 1 / 2⟩] }

/-- C5 counterexample.  All of the claim's hypotheses hold — the oracle
knows the symbol at the fixed positive price 1/2, the quantity 1 is
positive and affordable, and the symbol is not held — yet with the cash
arithmetic in IEEE binary64 the buy and the immediate sell both succeed
and leave the balance at `2^52`, NOT the pre-buy `2^52 + 1`: rounding
half to even twice loses the odd unit, so the exact restoration the
claim states is false of the program. -/
theorem C5_counterexample :
    hMem acctBig.holdings (normSym "AAPL") = false ∧
    Account.buy_sharesD oracleHalf acctBig "AAPL" 1 1 =
      .ok (⟨"AAPL", 1, 1 / 2, 1 / 2⟩, acctMidD) ∧
    Account.sell_sharesD oracleHalf acctMidD "AAPL" 1 2 =
      .ok (⟨"AAPL", 1, 1 / 2, 1 / 2⟩, acctEndD) ∧
    acctEndD.cash_balance ≠ acctBig.cash_balance := by
  have hnorm : normSym "AAPL" = "AAPL" := rfl
  refine ⟨rfl, ?_, ?_, by norm_num [acctEndD, acctBig, bigCash]⟩
  · norm_num [Account.buy_sharesD, hnorm, oracleHalf, acctBig, acctMidD,
      bigCash, hAddQ, Account.recordTransaction, fmul, fsub, roundQ, qExp,
      qExpUp, qExpDown, roundHalfEven, qFloor, pow2,
      show (53 : ℤ).toNat = 53 from rfl]
  · norm_num [Account.sell_sharesD, hnorm, oracleHalf, acctMidD, acctEndD,
      bigCash, hGet, hAddQ, hDel, Account.recordTransaction, fmul, fadd,
      roundQ, qExp, qExpUp, qExpDown, roundHalfEven, qFloor, pow2,
      show (53 : ℤ).toNat = 53 from rfl]

end CrewAccounts
